import Mathlib

/-!
Verification of the federated-averaging core of the `biotech-implementations`
repository (`src/Federated_Genomic/src/tff/`): the aggregator
(`aggregate_weights.py::federated_average`, `server.py::federated_average`),
the local trainers (`demo_federated_learning.py::train_local`,
`client.py::train_local`, `train_node.py::train_model`) and the server's
round-collection loop (`server.py::main`).

Python floats are idealised as exact rationals (`ℚ`) where the code only
adds, multiplies and divides, and as reals (`ℝ`) where the code calls
`exp`.  A Python function that can raise is modelled with `Except String`,
the string naming the Python exception class; a Python function that can
`return None` on a non-error path returns an `Option` inside the `Except`.
-/

namespace FedGen

/-- A node's weight update as read by `aggregate_weights.py`: the JSON
document `{weights: [...], bias: ..., n_samples: ...}` produced by
`train_node.py::train_model` (extra metadata fields are not read by the
aggregator and are omitted). -/
structure Update where
  weights : List ℚ
  bias : ℚ
  n_samples : ℕ
deriving Repr, DecidableEq

/-- The global model built by `aggregate_weights.py::federated_average`:
`{weights, bias, total_samples, nodes_aggregated}`. -/
structure GlobalModel where
  weights : List ℚ
  bias : ℚ
  total_samples : ℕ
  nodes_aggregated : List String
deriving Repr, DecidableEq

/-- NumPy's in-place `a += b` on 1-d float arrays: element-wise when the
shapes agree, broadcasting `b` when it has a single element, and a
`ValueError` otherwise (the output operand of an in-place add cannot be
broadcast). -/
def npAddInPlace (a b : List ℚ) : Except String (List ℚ) :=
  if b.length = a.length then .ok (List.zipWith (· + ·) a b)
  else if b.length = 1 then .ok (a.map (· + b.headD 0))
  else .error "ValueError"

/-- One iteration of the aggregation loop of
`aggregate_weights.py::federated_average` (lines 60–64): compute
`weight_factor = n_samples / total_samples` (a `ZeroDivisionError` when
`total_samples = 0`), then `aggregated.weights += weights * factor` and
`aggregated.bias += bias * factor`. -/
def aggStep (total : ℕ) (acc : List ℚ × ℚ) (u : Update) :
    Except String (List ℚ × ℚ) :=
  if total = 0 then .error "ZeroDivisionError"
  else
    match npAddInPlace acc.1
        (u.weights.map (· * ((u.n_samples : ℚ) / (total : ℚ)))) with
    | .error e => .error e
    | .ok w => .ok (w, acc.2 + u.bias * ((u.n_samples : ℚ) / (total : ℚ)))

/-- Model of `aggregate_weights.py::federated_average(node_weights)`.  The Python
argument is a dict from node id to update; Python dicts iterate in
insertion order, so it is modelled as an association list.  On an empty
dict the function takes the `if not node_weights: return None` branch —
a normal return of `None`, not an exception. -/
def federated_average (node_weights : List (String × Update)) :
    Except String (Option GlobalModel) :=
  if node_weights.isEmpty then .ok none
  else
    let total := (node_weights.map (·.2.n_samples)).sum
    let n_weights := ((node_weights.headD ("", ⟨[], 0, 0⟩)).2.weights).length
    match node_weights.foldlM (fun acc p => aggStep total acc p.2)
        (List.replicate n_weights 0, (0 : ℚ)) with
    | .error e => .error e
    | .ok (w, b) =>
        .ok (some ⟨w, b, total, node_weights.map (·.1)⟩)

/-- A weight-update message as the server's collection loop sees it after
JSON decoding and unpickling: `{node_id, weights: [coefficients, bias],
n_samples, round}`. -/
structure NodeMsg where
  node_id : String
  weights : List ℚ × ℚ
  n_samples : ℕ
  round : ℕ
deriving Repr, DecidableEq

/-- One term `sum(u['weights'][0][i] * u['n_samples'] for u in updates) / total`
of the list comprehension in `server.py::federated_average`: Python first
evaluates the generator (an `IndexError` when some update's coefficient
list has no index `i`) and then divides (a `ZeroDivisionError` when
`total = 0`). -/
def serverAvgTerm (updates : List NodeMsg) (total : ℕ) (i : ℕ) :
    Except String ℚ :=
  if updates.any (fun u => u.weights.1.length ≤ i) then .error "IndexError"
  else if total = 0 then .error "ZeroDivisionError"
  else .ok (((updates.map
      (fun u => u.weights.1.getD i 0 * (u.n_samples : ℚ))).sum) / (total : ℚ))

/-- The whole comprehension
`[sum(...) / total for i in range(len(weights[0]))]` of
`server.py::federated_average`, evaluated left to right with the first
raised exception propagating. -/
def serverAvgList (all : List NodeMsg) (total : ℕ) :
    List ℕ → Except String (List ℚ)
  | [] => .ok []
  | i :: is =>
    match serverAvgTerm all total i with
    | .error e => .error e
    | .ok q =>
      match serverAvgList all total is with
      | .error e => .error e
      | .ok qs => .ok (q :: qs)

/-- Model of `server.py::federated_average(updates)` (lines 14–21): `total` is the
sample sum, the coefficient count is `len(updates[0]['weights'][0])`
(an `IndexError` on an empty list), `avg_w` averages index by index and
`avg_b` averages the biases. -/
def server_federated_average (updates : List NodeMsg) :
    Except String (List ℚ × ℚ) :=
  match updates with
  | [] => .error "IndexError"
  | u0 :: rest =>
    let all := u0 :: rest
    let total : ℕ := (all.map (·.n_samples)).sum
    let L := u0.weights.1.length
    match serverAvgList all total (List.range L) with
    | .error e => .error e
    | .ok avg_w =>
        if total = 0 then .error "ZeroDivisionError"
        else .ok (avg_w,
          ((all.map (fun u => u.weights.2 * (u.n_samples : ℚ))).sum) / (total : ℚ))

/-- The dot product `sum(xij * wj for xij, wj in zip(xi, w))` that every
local trainer uses for the pre-activation. -/
def dot (xi w : List ℝ) : ℝ := (List.zipWith (· * ·) xi w).sum

/-- The argument `demo_federated_learning.py::sigmoid` passes to
`math.exp`: the input is clamped by `max(-500, min(500, x))` before the
negation and exponentiation. -/
def demoExpArg (x : ℝ) : ℝ := -(max (-500) (min 500 x))

/-- Model of `demo_federated_learning.py::sigmoid(x)` =
`1 / (1 + math.exp(-max(-500, min(500, x))))`. -/
noncomputable def sigmoid (x : ℝ) : ℝ := 1 / (1 + Real.exp (demoExpArg x))

/-- The argument `client.py::train_local` passes to `math.exp`:
`-sum(xij * wj for xij, wj in zip(xi, w)) - b`, with no clamping. -/
def clientExpArg (w : List ℝ) (b : ℝ) (xi : List ℝ) : ℝ := -(dot xi w) - b

/-- One example's update in `demo_federated_learning.py::train_local`:
`pred = sigmoid(Σ xij*wj + b)`, `error = yi - pred`,
`w = [wj + lr * error * xij ...]`, `b = b + lr * error`. -/
noncomputable def demoStep (lr : ℝ) (wb : List ℝ × ℝ) (xy : List ℝ × ℝ) :
    List ℝ × ℝ :=
  let pred := sigmoid (dot xy.1 wb.1 + wb.2)
  let error := xy.2 - pred
  (List.zipWith (fun wj xij => wj + lr * error * xij) wb.1 xy.1,
   wb.2 + lr * error)

/-- Model of `demo_federated_learning.py::train_local(X, y, w, b, lr, epochs)`:
for each epoch, fold the per-example step over `zip(X[:200], y[:200])` —
only the first 200 rows are ever read. -/
noncomputable def train_local (X : List (List ℝ)) (y : List ℝ)
    (w : List ℝ) (b : ℝ) (lr : ℝ) (epochs : ℕ) : List ℝ × ℝ :=
  (fun wb => ((X.take 200).zip (y.take 200)).foldl (demoStep lr) wb)^[epochs]
    (w, b)

/-- One example's update in `client.py::train_local`:
`pred = 1 / (1 + exp(-Σ xij*wj - b))` (unclamped), `error = yi - pred`,
`w = [wj + lr * error * xij ...]`, `b = b + lr * error`. -/
noncomputable def clientStep (lr : ℝ) (wb : List ℝ × ℝ) (xy : List ℝ × ℝ) :
    List ℝ × ℝ :=
  let pred := 1 / (1 + Real.exp (clientExpArg wb.1 wb.2 xy.1))
  let error := xy.2 - pred
  (List.zipWith (fun wj xij => wj + lr * error * xij) wb.1 xy.1,
   wb.2 + lr * error)

/-- Model of `client.py::train_local(weights, X, y, lr)` with `weights = [w, b]`
already unpacked: a single pass over the mini-batch
`zip(X[:100], y[:100])` — only the first 100 rows are ever read. -/
noncomputable def client_train_local (w : List ℝ) (b : ℝ)
    (X : List (List ℝ)) (y : List ℝ) (lr : ℝ) : List ℝ × ℝ :=
  ((X.take 100).zip (y.take 100)).foldl (clientStep lr) (w, b)

/-- The argument `train_node.py::train_model` passes to `np.exp`:
`-np.clip(z, -500, 500)`, i.e. the pre-activation clamped to
`[-500, 500]` and negated. -/
def nodeExpArg (z : ℝ) : ℝ := -(max (-500) (min 500 z))

/-- The per-row prediction of `train_node.py::train_model`:
`1 / (1 + np.exp(-np.clip(z, -500, 500)))`. -/
noncomputable def nodeSigmoid (z : ℝ) : ℝ := 1 / (1 + Real.exp (nodeExpArg z))

/-- One epoch of the training loop of `train_node.py::train_model`
(lines 106–118), on the already-normalized feature matrix: full-batch
predictions `1/(1+exp(-clip(Xw + b)))`, `error = predictions - y`,
`weight_gradients = Xᵀ·error / len(y)`, `bias_gradient = mean(error)`,
then `weights -= lr * weight_gradients`, `bias -= lr * bias_gradient`. -/
noncomputable def nodeEpoch (lr : ℝ) (X : List (List ℝ)) (y : List ℝ)
    (wb : List ℝ × ℝ) : List ℝ × ℝ :=
  let n : ℝ := (y.length : ℝ)
  let preds := X.map (fun xi => nodeSigmoid (dot xi wb.1 + wb.2))
  let errors := List.zipWith (· - ·) preds y
  let wgrad := (List.range wb.1.length).map
    (fun j => ((X.zip errors).map (fun pe => pe.1.getD j 0 * pe.2)).sum / n)
  (List.zipWith (fun wj gj => wj - lr * gj) wb.1 wgrad,
   wb.2 - lr * (errors.sum / n))

/-- The per-coordinate weight change of one `client.py` update step:
new coefficient `j` minus old coefficient `j`. -/
noncomputable def clientDelta (lr : ℝ) (w : List ℝ) (b : ℝ) (x : List ℝ)
    (yl : ℝ) (j : ℕ) : ℝ :=
  (clientStep lr (w, b) (x, yl)).1.getD j 0 - w.getD j 0

/-- The per-coordinate weight change of one `train_node.py` epoch run on
the single example `(x, yl)`. -/
noncomputable def nodeDelta (lr : ℝ) (w : List ℝ) (b : ℝ) (x : List ℝ)
    (yl : ℝ) (j : ℕ) : ℝ :=
  (nodeEpoch lr [x] [yl] (w, b)).1.getD j 0 - w.getD j 0

/-- The collection loop of `server.py::main` (lines 42–51) for one round:
incoming messages are processed in arrival order; a message is appended
to `updates` only when `data['round'] == round_num`, every message is
acknowledged, and pulling stops once `NUM_NODES` updates are collected
(or, in the model, when the message stream ends). -/
def collect_updates (round_num num_nodes : ℕ) :
    List NodeMsg → List NodeMsg → List NodeMsg
  | acc, [] => acc
  | acc, m :: ms =>
    if num_nodes ≤ acc.length then acc
    else if m.round = round_num then
      collect_updates round_num num_nodes (acc ++ [m]) ms
    else collect_updates round_num num_nodes acc ms

/-- The §8 two-node scenario of the specification: US with 700 samples and
weights `[0.5,0,0,0,0], b = 0.1`; EU with 300 samples and
`[0.1,0,0,0,0], b = 0.3`. -/
def scenarioUpdates : List (String × Update) :=
  [("us", ⟨[1/2, 0, 0, 0, 0], 1/10, 700⟩),
   ("eu", ⟨[1/10, 0, 0, 0, 0], 3/10, 300⟩)]

/-- Every entry of a `replicate`d zero list reads `0`, in or out of range. -/
lemma getD_replicate_zero (n j : ℕ) : (List.replicate n (0 : ℚ)).getD j 0 = 0 := by
  induction n generalizing j with
  | zero => simp
  | succ m ih =>
    cases j with
    | zero => simp
    | succ k => simp only [List.replicate_succ, List.getD_cons_succ]; exact ih k

/-- Reading an entry of a scaled list: `getD` distributes over the scaling, with default `0`. -/
lemma getD_map_mul (w : List ℚ) (c : ℚ) (j : ℕ) :
    (w.map (· * c)).getD j 0 = w.getD j 0 * c := by
  induction w generalizing j with
  | nil => simp
  | cons a t ih =>
    cases j with
    | zero => simp
    | succ k => simpa using ih k

/-- Reading an entry of an element-wise sum: `getD` distributes over addition of equal-length lists,
with default `0`. -/
lemma getD_zipWith_add (a : List ℚ) :
    ∀ (b : List ℚ) (j : ℕ), a.length = b.length →
      (List.zipWith (· + ·) a b).getD j 0 = a.getD j 0 + b.getD j 0 := by
  induction a with
  | nil => intro b j h; simp [(List.length_eq_zero.mp h.symm)]
  | cons x t ih =>
    intro b j h
    cases b with
    | nil => simp at h
    | cons y s =>
      cases j with
      | zero => simp
      | succ k => simp only [List.zipWith_cons_cons, List.getD_cons_succ]; exact ih s k (by simpa using h)

/-- Summing terms already divided by `t` is dividing the sum by `t`. -/
lemma sum_map_mul_div {α : Type} (l : List α) (f g : α → ℚ) (t : ℚ) :
    (l.map (fun x => f x * (g x / t))).sum
      = (l.map (fun x => f x * g x)).sum / t := by
  induction l with
  | nil => simp
  | cons a s ih => simp [ih, add_div, mul_div_assoc]

/-- Invariant of the aggregation loop of
`aggregate_weights.py::federated_average`: starting from an accumulator of
the common coefficient length `L`, the loop succeeds and ends at the
accumulator plus the factor-weighted sum of the updates, coefficient-wise
and for the bias. -/
lemma foldAgg_ok (total : ℕ) (htot : total ≠ 0) (L : ℕ) :
    ∀ (l : List (String × Update)) (acc : List ℚ × ℚ),
      acc.1.length = L → (∀ p ∈ l, p.2.weights.length = L) →
      ∃ w b, l.foldlM (fun acc p => aggStep total acc p.2) acc = .ok (w, b) ∧
        w.length = L ∧
        (∀ j, w.getD j 0 = acc.1.getD j 0 +
          (l.map (fun p =>
            p.2.weights.getD j 0 * ((p.2.n_samples : ℚ) / (total : ℚ)))).sum) ∧
        b = acc.2 +
          (l.map (fun p => p.2.bias * ((p.2.n_samples : ℚ) / (total : ℚ)))).sum := by
  intro l
  induction l with
  | nil =>
    intro acc hacc _
    exact ⟨acc.1, acc.2, rfl, hacc, by simp, by simp⟩
  | cons p rest ih =>
    intro acc hacc hL
    have hpL : p.2.weights.length = L := hL p (List.mem_cons_self p rest)
    have hmapL : (p.2.weights.map (· * ((p.2.n_samples : ℚ) / (total : ℚ)))).length
        = acc.1.length := by simp [hpL, hacc]
    have hstep : aggStep total acc p.2 =
        .ok (List.zipWith (· + ·) acc.1
              (p.2.weights.map (· * ((p.2.n_samples : ℚ) / (total : ℚ)))),
             acc.2 + p.2.bias * ((p.2.n_samples : ℚ) / (total : ℚ))) := by
      simp [aggStep, htot, npAddInPlace, hmapL]
    have hzlen : (List.zipWith (· + ·) acc.1
        (p.2.weights.map (· * ((p.2.n_samples : ℚ) / (total : ℚ))))).length = L := by
      simp [hpL, hacc]
    obtain ⟨w, b, hfold, hwlen, hwval, hbval⟩ :=
      ih (List.zipWith (· + ·) acc.1
            (p.2.weights.map (· * ((p.2.n_samples : ℚ) / (total : ℚ)))),
          acc.2 + p.2.bias * ((p.2.n_samples : ℚ) / (total : ℚ)))
        hzlen (fun q hq => hL q (List.mem_cons_of_mem p hq))
    refine ⟨w, b, ?_, hwlen, ?_, ?_⟩
    · rw [List.foldlM_cons, hstep]
      exact hfold
    · intro j
      rw [hwval j]
      have := getD_zipWith_add acc.1
        (p.2.weights.map (· * ((p.2.n_samples : ℚ) / (total : ℚ)))) j hmapL.symm
      rw [this, getD_map_mul]
      simp [add_assoc]
    · rw [hbval]; simp [add_assoc]

/-- C1 — For a non-empty collection of updates of one common coefficient
length with a positive sample total, `aggregate_weights.py`'s
`federated_average` returns a model whose every coefficient is
`Σ_i (w_i[j] * n_i) / Σ_i n_i` and whose bias is weighted the same way. -/
theorem aggregate_weighted_average_formula
    (l : List (String × Update)) (L : ℕ)
    (hne : l ≠ [])
    (hL : ∀ p ∈ l, p.2.weights.length = L)
    (htot : (l.map (·.2.n_samples)).sum ≠ 0) :
    ∃ g, federated_average l = .ok (some g) ∧
      (∀ j, g.weights.getD j 0 =
        (l.map (fun p => p.2.weights.getD j 0 * (p.2.n_samples : ℚ))).sum
          / (((l.map (·.2.n_samples)).sum : ℕ) : ℚ)) ∧
      g.bias = (l.map (fun p => p.2.bias * (p.2.n_samples : ℚ))).sum
          / (((l.map (·.2.n_samples)).sum : ℕ) : ℚ) := by
  match l, hne with
  | p :: rest, _ =>
    set total := ((p :: rest).map (·.2.n_samples)).sum with htotdef
    have hpL : p.2.weights.length = L := hL p (List.mem_cons_self p rest)
    obtain ⟨w, b, hfold, hwlen, hwval, hbval⟩ :=
      foldAgg_ok total htot L (p :: rest)
        (List.replicate ((p :: rest).headD ("", ⟨[], 0, 0⟩)).2.weights.length 0, 0)
        (by simp [hpL]) hL
    refine ⟨⟨w, b, total, (p :: rest).map (·.1)⟩, ?_, ?_, ?_⟩
    · rw [federated_average]
      simp only [List.isEmpty_cons, Bool.false_eq_true, if_false]
      rw [← htotdef, hfold]
    · intro j
      have := hwval j
      rw [this, sum_map_mul_div]
      simp [getD_replicate_zero]
    · simp only [zero_add] at hbval
      rw [hbval, sum_map_mul_div]

/-- Adding a list to a same-length list of zeros gives the list back. -/
lemma zipWith_add_replicate_zero (w : List ℚ) :
    List.zipWith (· + ·) (List.replicate w.length (0 : ℚ)) w = w := by
  induction w with
  | nil => simp
  | cons a t ih => simp [List.replicate_succ, ih]

/-- C4 — For a non-empty collection of updates whose coefficient vectors
all have one common length `L` (any `L`) and whose sample total is
positive, the aggregate's coefficient vector also has length `L`. -/
theorem aggregate_dimension_invariance
    (l : List (String × Update)) (L : ℕ)
    (hne : l ≠ [])
    (hL : ∀ p ∈ l, p.2.weights.length = L)
    (htot : (l.map (·.2.n_samples)).sum ≠ 0) :
    ∃ g, federated_average l = .ok (some g) ∧ g.weights.length = L := by
  match l, hne with
  | p :: rest, _ =>
    set total := ((p :: rest).map (·.2.n_samples)).sum with htotdef
    have hpL : p.2.weights.length = L := hL p (List.mem_cons_self p rest)
    obtain ⟨w, b, hfold, hwlen, -, -⟩ :=
      foldAgg_ok total htot L (p :: rest)
        (List.replicate ((p :: rest).headD ("", ⟨[], 0, 0⟩)).2.weights.length 0, 0)
        (by simp [hpL]) hL
    refine ⟨⟨w, b, total, (p :: rest).map (·.1)⟩, ?_, hwlen⟩
    rw [federated_average]
    simp only [List.isEmpty_cons, Bool.false_eq_true, if_false]
    rw [← htotdef, hfold]

/-- C4 witness — dimension invariance at coefficient length 3 (not 5). -/
theorem aggregate_dimension_invariance_witness :
    ([("a", (⟨[1, 2, 3], 0, 2⟩ : Update)), ("b", ⟨[4, 5, 6], 0, 2⟩)] ≠
      ([] : List (String × Update))) ∧
    ∃ g, federated_average
        [("a", ⟨[1, 2, 3], 0, 2⟩), ("b", ⟨[4, 5, 6], 0, 2⟩)] = .ok (some g) ∧
      g.weights.length = 3 :=
  ⟨by decide, aggregate_dimension_invariance _ 3 (by decide) (by decide)
    (by decide)⟩

/-- C6 — Aggregating a single update with a positive sample count returns
that update's coefficients and bias unchanged (weight factor `n/n = 1`). -/
theorem aggregate_single_update_identity (nid : String) (u : Update)
    (h : 0 < u.n_samples) :
    federated_average [(nid, u)] =
      .ok (some ⟨u.weights, u.bias, u.n_samples, [nid]⟩) := by
  have hn0 : u.n_samples ≠ 0 := Nat.pos_iff_ne_zero.mp h
  have hn : ((u.n_samples : ℚ)) ≠ 0 := Nat.cast_ne_zero.mpr hn0
  rw [federated_average]
  simp [aggStep, npAddInPlace, hn0, div_self hn, zipWith_add_replicate_zero]

/-- C6 witness — a lone node's update `([7, -2], 1/4, n = 9)` comes back
unchanged from the aggregator. -/
theorem aggregate_single_update_identity_witness :
    0 < (9 : ℕ) ∧
    federated_average [("sg", ⟨[7, -2], 1/4, 9⟩)] =
      .ok (some ⟨[7, -2], 1/4, 9, ["sg"]⟩) :=
  ⟨by decide, aggregate_single_update_identity "sg" ⟨[7, -2], 1/4, 9⟩ (by decide)⟩

/-- C1 witness — the weighted-average formula instantiated at the §8
two-node scenario. -/
theorem aggregate_weighted_average_formula_witness :
    (scenarioUpdates ≠ []) ∧
    ∃ g, federated_average scenarioUpdates = .ok (some g) ∧
      (∀ j, g.weights.getD j 0 =
        (scenarioUpdates.map
            (fun p => p.2.weights.getD j 0 * (p.2.n_samples : ℚ))).sum
          / (((scenarioUpdates.map (·.2.n_samples)).sum : ℕ) : ℚ)) ∧
      g.bias = (scenarioUpdates.map
            (fun p => p.2.bias * (p.2.n_samples : ℚ))).sum
          / (((scenarioUpdates.map (·.2.n_samples)).sum : ℕ) : ℚ) :=
  ⟨by decide, aggregate_weighted_average_formula scenarioUpdates 5
    (by decide) (by decide) (by decide)⟩

/-- C2 counterexample — called with zero updates,
`aggregate_weights.py::federated_average` takes the
`if not node_weights: return None` branch: it silently returns `None`
rather than failing with any error, `NoUpdatesAvailable` included. -/
theorem aggregate_zero_updates_counterexample :
    federated_average [] = .ok none := rfl

/-- C2 (amended) — with zero updates, `aggregate_weights.py`'s aggregator
silently returns `None`, and `server.py`'s aggregator fails with a generic
`IndexError` from `updates[0]`; neither fails with `NoUpdatesAvailable`. -/
theorem aggregate_zero_updates_behavior :
    federated_average [] = .ok none ∧
      server_federated_average [] = .error "IndexError" :=
  ⟨rfl, rfl⟩

/-- The only exception one comprehension term of `server.py`'s average can
raise is an `IndexError` or a `ZeroDivisionError`. -/
lemma serverAvgTerm_error_classes (all : List NodeMsg) (total : ℕ) (i : ℕ)
    (e : String) (h : serverAvgTerm all total i = .error e) :
    e = "IndexError" ∨ e = "ZeroDivisionError" := by
  unfold serverAvgTerm at h
  split_ifs at h with h1 h2
  · exact Or.inl (Except.error.inj h).symm
  · exact Or.inr (Except.error.inj h).symm

/-- The only exception the whole comprehension of `server.py`'s average can
raise is an `IndexError` or a `ZeroDivisionError`. -/
lemma serverAvgList_error_classes (all : List NodeMsg) (total : ℕ) :
    ∀ (l : List ℕ) (e : String), serverAvgList all total l = .error e →
      e = "IndexError" ∨ e = "ZeroDivisionError" := by
  intro l
  induction l with
  | nil => intro e h; exact absurd h (by simp [serverAvgList])
  | cons i is ih =>
    intro e h
    unfold serverAvgList at h
    cases h1 : serverAvgTerm all total i with
    | error e1 =>
      rw [h1] at h
      exact (Except.error.inj h) ▸ serverAvgTerm_error_classes all total i e1 h1
    | ok q =>
      rw [h1] at h
      cases h2 : serverAvgList all total is with
      | error e2 => rw [h2] at h; exact (Except.error.inj h) ▸ ih e2 h2
      | ok qs => rw [h2] at h; exact absurd h (by simp)

/-- C5 counterexample — two updates with coefficient vectors of different
lengths (2 and 3): `server.py::federated_average` raises nothing at all;
it silently averages over the first update's two indices, ignoring the
second update's third coefficient. -/
theorem server_mismatched_lengths_counterexample :
    server_federated_average
        [⟨"us", ([1, 1], 0), 1, 1⟩, ⟨"eu", ([2, 2, 7], 0), 1, 1⟩] =
      .ok ([3/2, 3/2], 0) := by
  show Except.ok _ = _
  norm_num [server_federated_average, serverAvgList, serverAvgTerm, List.range_succ]

/-- C5 (amended) — aggregation never fails with `DimensionMismatch` (no
such error exists in the code): `server.py::federated_average` either
succeeds — as it does when a later update's coefficient vector is longer
than the first's, silently ignoring the extra coefficients — or fails
with a generic `IndexError` (some update shorter than the first) or
`ZeroDivisionError` (zero sample total). -/
theorem server_error_taxonomy (updates : List NodeMsg) :
    (∃ wb, server_federated_average updates = .ok wb) ∨
      server_federated_average updates = .error "IndexError" ∨
      server_federated_average updates = .error "ZeroDivisionError" := by
  cases updates with
  | nil => exact Or.inr (Or.inl rfl)
  | cons u0 rest =>
    rw [server_federated_average]
    cases h1 : serverAvgList (u0 :: rest)
        (((u0 :: rest).map (·.n_samples)).sum) (List.range u0.weights.1.length) with
    | error e =>
      rcases serverAvgList_error_classes _ _ _ e h1 with he | he
      · subst he; exact Or.inr (Or.inl rfl)
      · subst he; exact Or.inr (Or.inr rfl)
    | ok avg_w =>
      dsimp only
      by_cases h2 : ((u0 :: rest).map (·.n_samples)).sum = 0
      · rw [if_pos h2]
        exact Or.inr (Or.inr rfl)
      · rw [if_neg h2]
        exact Or.inl ⟨_, rfl⟩

/-- C9 counterexample — `client.py::train_local` passes the raw affine
score to `math.exp` with no clamping: with weights `[1]`, bias `0` and
feature row `[1000]` the exponent argument is `-1000`, outside
`[-500, 500]`. -/
theorem client_exp_arg_unclamped_counterexample :
    clientExpArg [1] 0 [1000] = -1000 ∧
      ¬(-500 ≤ clientExpArg [1] 0 [1000]) := by
  constructor <;> norm_num [clientExpArg, dot]

/-- C9 (amended) — the sigmoid's exponent argument is clamped to
`[-500, 500]` in `demo_federated_learning.py` and `train_node.py`, but
not in `client.py` (see the counterexample): for every real input, the
demo's and the node's exponent arguments stay within the range. -/
theorem sigmoid_clamped_in_demo_and_node (x z : ℝ) :
    (-500 ≤ demoExpArg x ∧ demoExpArg x ≤ 500) ∧
      (-500 ≤ nodeExpArg z ∧ nodeExpArg z ≤ 500) := by
  unfold demoExpArg nodeExpArg
  refine ⟨⟨?_, ?_⟩, ?_, ?_⟩
  · have : max (-500) (min 500 x) ≤ 500 :=
      max_le (by norm_num) (min_le_left _ _)
    linarith
  · have : (-500 : ℝ) ≤ max (-500) (min 500 x) := le_max_left _ _
    linarith
  · have : max (-500) (min 500 z) ≤ 500 :=
      max_le (by norm_num) (min_le_left _ _)
    linarith
  · have : (-500 : ℝ) ≤ max (-500) (min 500 z) := le_max_left _ _
    linarith

/-- C7 counterexample — the demo trainer called with an empty
feature/label set (initial weights `[0.01]*5`, bias `0`, the demo's
defaults `lr = 0.1`, one epoch) silently returns the input weights
unchanged instead of failing with `InvalidInput`. -/
theorem trainer_empty_input_counterexample :
    train_local [] [] [1/100, 1/100, 1/100, 1/100, 1/100] 0 (1/10) 1 =
      ([1/100, 1/100, 1/100, 1/100, 1/100], 0) := by
  unfold train_local
  rfl

/-- C7 (amended) — on an empty feature/label set both per-example
trainers iterate over `zip([], [])`, i.e. not at all, and silently
return the input weights and bias unchanged; no `InvalidInput` error
exists in the code. -/
theorem trainer_empty_input_returns_weights_unchanged
    (w : List ℝ) (b lr lr' : ℝ) (epochs : ℕ) :
    train_local [] [] w b lr epochs = (w, b) ∧
      client_train_local w b [] [] lr' = (w, b) := by
  constructor
  · unfold train_local
    exact Function.iterate_fixed rfl epochs
  · rfl

/-- C8 — each local trainer reads only a leading prefix of its rows:
two data sets agreeing on their first 200 rows give the demo trainer
identical results, and two agreeing on their first 100 rows give the
client trainer identical results, for every weight start, learning rate
and epoch count. -/
theorem trainer_batch_cap_prefix_only
    (X₁ X₂ : List (List ℝ)) (y₁ y₂ : List ℝ) (w : List ℝ) (b lr : ℝ)
    (epochs : ℕ)
    (A₁ A₂ : List (List ℝ)) (c₁ c₂ : List ℝ) (w' : List ℝ) (b' lr' : ℝ)
    (hX : X₁.take 200 = X₂.take 200) (hy : y₁.take 200 = y₂.take 200)
    (hA : A₁.take 100 = A₂.take 100) (hc : c₁.take 100 = c₂.take 100) :
    train_local X₁ y₁ w b lr epochs = train_local X₂ y₂ w b lr epochs ∧
      client_train_local w' b' A₁ c₁ lr' = client_train_local w' b' A₂ c₂ lr' := by
  constructor
  · unfold train_local
    rw [hX, hy]
  · unfold client_train_local
    rw [hA, hc]

/-- C8 witness — appending a row past the cap (250 + 1 rows against the
demo's 200-row cap, 120 + 1 rows against the client's 100-row cap)
leaves both training results unchanged. -/
theorem trainer_batch_cap_prefix_only_witness :
    ((List.replicate 250 [(1 : ℝ)]).take 200 =
        (List.replicate 250 [(1 : ℝ)] ++ [[2]]).take 200) ∧
    ((List.replicate 250 (1 : ℝ)).take 200 =
        (List.replicate 250 (1 : ℝ) ++ [0]).take 200) ∧
    ((List.replicate 120 [(1 : ℝ)]).take 100 =
        (List.replicate 120 [(1 : ℝ)] ++ [[3]]).take 100) ∧
    ((List.replicate 120 (1 : ℝ)).take 100 =
        (List.replicate 120 (1 : ℝ) ++ [1]).take 100) ∧
    (train_local (List.replicate 250 [(1 : ℝ)]) (List.replicate 250 (1 : ℝ))
        [0] 0 1 1 =
      train_local (List.replicate 250 [(1 : ℝ)] ++ [[2]])
        (List.replicate 250 (1 : ℝ) ++ [0]) [0] 0 1 1 ∧
     client_train_local [0] 0 (List.replicate 120 [(1 : ℝ)])
        (List.replicate 120 (1 : ℝ)) 1 =
      client_train_local [0] 0 (List.replicate 120 [(1 : ℝ)] ++ [[3]])
        (List.replicate 120 (1 : ℝ) ++ [1]) 1) :=
  have h1 : (List.replicate 250 [(1 : ℝ)]).take 200 =
      (List.replicate 250 [(1 : ℝ)] ++ [[2]]).take 200 :=
    (List.take_append_of_le_length (by norm_num)).symm
  have h2 : (List.replicate 250 (1 : ℝ)).take 200 =
      (List.replicate 250 (1 : ℝ) ++ [0]).take 200 :=
    (List.take_append_of_le_length (by norm_num)).symm
  have h3 : (List.replicate 120 [(1 : ℝ)]).take 100 =
      (List.replicate 120 [(1 : ℝ)] ++ [[3]]).take 100 :=
    (List.take_append_of_le_length (by norm_num)).symm
  have h4 : (List.replicate 120 (1 : ℝ)).take 100 =
      (List.replicate 120 (1 : ℝ) ++ [1]).take 100 :=
    (List.take_append_of_le_length (by norm_num)).symm
  ⟨h1, h2, h3, h4,
    trainer_batch_cap_prefix_only _ _ _ _ [0] 0 1 1 _ _ _ _ [0] 0 1 h1 h2 h3 h4⟩

/-- In-range `getD` of a `zipWith`, with default `0`. -/
lemma getD_zipWith_of_lt (f : ℝ → ℝ → ℝ) :
    ∀ (a b : List ℝ) (j : ℕ), j < a.length → j < b.length →
      (List.zipWith f a b).getD j 0 = f (a.getD j 0) (b.getD j 0) := by
  intro a
  induction a with
  | nil => intro b j h _; simp at h
  | cons u t ih =>
    intro b j ha hb
    cases b with
    | nil => simp at hb
    | cons v s =>
      cases j with
      | zero => simp
      | succ k =>
        simp only [List.zipWith_cons_cons, List.getD_cons_succ]
        exact ih s k (by simpa using ha) (by simpa using hb)

/-- In-range `getD` of a mapped `range`, with default `0`. -/
lemma getD_map_range (f : ℕ → ℝ) (n j : ℕ) (h : j < n) :
    ((List.range n).map f).getD j 0 = f j := by
  simp [List.getD_eq_getElem?_getD, List.getElem?_range h]

/-- Every value `1 / (1 + e^s)` of the logistic function is positive. -/
lemma one_div_one_add_exp_pos (s : ℝ) : 0 < 1 / (1 + Real.exp s) := by
  positivity

/-- Every value `1 / (1 + e^s)` of the logistic function is below one. -/
lemma one_div_one_add_exp_lt_one (s : ℝ) : 1 / (1 + Real.exp s) < 1 := by
  rw [div_lt_one (by positivity)]
  linarith [Real.exp_pos s]

/-- The coordinate change of one `client.py` step in closed form. -/
lemma clientDelta_eq (lr : ℝ) (w : List ℝ) (b : ℝ) (x : List ℝ) (yl : ℝ)
    (j : ℕ) (hx : x.length = w.length) (hj : j < w.length) :
    clientDelta lr w b x yl j =
      lr * (yl - 1 / (1 + Real.exp (clientExpArg w b x))) * x.getD j 0 := by
  unfold clientDelta clientStep
  dsimp only
  rw [getD_zipWith_of_lt _ w x j hj (hx ▸ hj)]
  ring

/-- The coordinate change of one `train_node.py` epoch on the single
example `(x, yl)` in closed form. -/
lemma nodeDelta_eq (lr : ℝ) (w : List ℝ) (b : ℝ) (x : List ℝ) (yl : ℝ)
    (j : ℕ) (hj : j < w.length) :
    nodeDelta lr w b x yl j =
      -(lr * (x.getD j 0 * (nodeSigmoid (dot x w + b) - yl))) := by
  unfold nodeDelta nodeEpoch
  dsimp only
  rw [getD_zipWith_of_lt _ w _ j hj (by simpa using hj), getD_map_range _ _ j hj]
  simp

/-- The two reference update rules agree in sign: for a binary label the
client-rule change and the node-rule change of any coordinate have a
non-negative product.  Both error conventions flip together with the
update sign, so the factors `yl - p` carry the same sign. -/
lemma client_node_delta_prod_nonneg (lr : ℝ) (w : List ℝ) (b : ℝ)
    (x : List ℝ) (yl : ℝ) (hy : yl = 0 ∨ yl = 1) (hx : x.length = w.length)
    (j : ℕ) :
    0 ≤ clientDelta lr w b x yl j * nodeDelta lr w b x yl j := by
  by_cases hj : j < w.length
  · rw [clientDelta_eq lr w b x yl j hx hj, nodeDelta_eq lr w b x yl j hj]
    have hkey : lr * (yl - 1 / (1 + Real.exp (clientExpArg w b x))) * x.getD j 0 *
        -(lr * (x.getD j 0 * (nodeSigmoid (dot x w + b) - yl))) =
        (lr * x.getD j 0) ^ 2 *
          ((yl - 1 / (1 + Real.exp (clientExpArg w b x))) *
           (yl - nodeSigmoid (dot x w + b))) := by
      ring
    rw [hkey]
    apply mul_nonneg (sq_nonneg _)
    have hp : 0 < 1 / (1 + Real.exp (clientExpArg w b x)) :=
      one_div_one_add_exp_pos _
    have hp1 : 1 / (1 + Real.exp (clientExpArg w b x)) < 1 :=
      one_div_one_add_exp_lt_one _
    have hq : 0 < nodeSigmoid (dot x w + b) := one_div_one_add_exp_pos _
    have hq1 : nodeSigmoid (dot x w + b) < 1 := one_div_one_add_exp_lt_one _
    rcases hy with h | h <;> subst h <;> nlinarith
  · have hxj : ¬ j < x.length := by rw [hx]; exact hj
    have hzero : clientDelta lr w b x yl j = 0 := by
      unfold clientDelta clientStep
      dsimp only
      rw [List.getD_eq_default _ _ (by simp [not_lt.mp hj, not_lt.mp hxj]),
        List.getD_eq_default _ _ (not_lt.mp hj), sub_zero]
    rw [hzero, zero_mul]

/-- C3 counterexample — the claim's witness cannot exist: there is no
common input (weights, bias, feature row, binary label, learning rate)
and coordinate on which a single `client.py` step and a single
`train_node.py` step move the weight in strictly opposite directions. -/
theorem update_rules_not_opposite_counterexample :
    ¬ ∃ (lr : ℝ) (w : List ℝ) (b : ℝ) (x : List ℝ) (yl : ℝ) (j : ℕ),
        (yl = 0 ∨ yl = 1) ∧ x.length = w.length ∧
        clientDelta lr w b x yl j * nodeDelta lr w b x yl j < 0 := by
  rintro ⟨lr, w, b, x, yl, j, hy, hx, h⟩
  exact absurd h (not_lt.mpr (client_node_delta_prod_nonneg lr w b x yl hy hx j))

/-- C3 (amended) — the client/server scripts' rule
(`error = y - pred`, `w += lr * error * x`) and the `train_node.py` rule
(`error = pred - y`, `w -= lr * grad`) are functionally the SAME
direction, not opposite: the sign flip in the error is cancelled by the
sign flip in the update, so on every common input with a binary label
each coordinate's two changes have non-negative product. -/
theorem update_rules_same_direction (lr : ℝ) (w : List ℝ) (b : ℝ)
    (x : List ℝ) (yl : ℝ) (hy : yl = 0 ∨ yl = 1) (hx : x.length = w.length)
    (j : ℕ) :
    0 ≤ clientDelta lr w b x yl j * nodeDelta lr w b x yl j :=
  client_node_delta_prod_nonneg lr w b x yl hy hx j

/-- C3 witness — the same-direction theorem at weights `[0]`, bias `0`,
example `([1], 1)`, learning rate `1`, coordinate `0`. -/
theorem update_rules_same_direction_witness :
    ((1 : ℝ) = 0 ∨ (1 : ℝ) = 1) ∧ [(1 : ℝ)].length = [(0 : ℝ)].length ∧
      0 ≤ clientDelta 1 [0] 0 [1] 1 0 * nodeDelta 1 [0] 0 [1] 1 0 :=
  ⟨Or.inr rfl, rfl,
    update_rules_same_direction 1 [0] 0 [1] 1 (Or.inr rfl) rfl 0⟩

/-- The collection loop only ever appends messages tagged with the
current round, so the round invariant on the accumulator is preserved. -/
lemma collect_updates_round_invariant (r n : ℕ) :
    ∀ (msgs acc : List NodeMsg), (∀ u ∈ acc, u.round = r) →
      ∀ u ∈ collect_updates r n acc msgs, u.round = r := by
  intro msgs
  induction msgs with
  | nil => intro acc hacc u hu; exact hacc u hu
  | cons m ms ih =>
    intro acc hacc u hu
    rw [collect_updates] at hu
    by_cases hfull : n ≤ acc.length
    · rw [if_pos hfull] at hu
      exact hacc u hu
    · rw [if_neg hfull] at hu
      by_cases hr : m.round = r
      · rw [if_pos hr] at hu
        refine ih (acc ++ [m]) ?_ u hu
        intro v hv
        rcases List.mem_append.mp hv with h | h
        · exact hacc v h
        · rw [List.mem_singleton.mp h]
          exact hr
      · rw [if_neg hr] at hu
        exact ih acc hacc u hu

/-- C10 — during the collection phase of round `r`, an update whose
round tag differs from `r` is never added: for every incoming message
sequence, every element of the collected list is tagged with round `r`. -/
theorem collect_updates_only_current_round (r n : ℕ)
    (msgs : List NodeMsg) (u : NodeMsg)
    (hu : u ∈ collect_updates r n [] msgs) : u.round = r :=
  collect_updates_round_invariant r n msgs [] (by intro v hv; simp at hv) u hu

/-- C10 witness — collecting round 2 from a stream holding one round-2
update and one stale round-1 update: the round-2 member of the collected
list is tagged 2. -/
theorem collect_updates_only_current_round_witness :
    (⟨"us", ([1], 0), 1, 2⟩ : NodeMsg) ∈
        collect_updates 2 2 []
          [⟨"us", ([1], 0), 1, 2⟩, ⟨"eu", ([2], 0), 1, 1⟩] ∧
      (⟨"us", ([1], 0), 1, 2⟩ : NodeMsg).round = 2 :=
  ⟨by decide,
    collect_updates_only_current_round 2 2
      [⟨"us", ([1], 0), 1, 2⟩, ⟨"eu", ([2], 0), 1, 1⟩]
      ⟨"us", ([1], 0), 1, 2⟩ (by decide)⟩

end FedGen
